import Mathlib

/-!
Verification of the block-fingerprint duplicate-file finder in `src/main.cpp`.

The program reads each candidate file in fixed-size blocks, zero-pads a short
final block, computes a CRC-32 per block (`calculateCRC32`, `readFile`),
filters candidates by regularity, excluded parent directory, minimum size and
a glob-style name mask (`processFile`), and groups files whose hash sequences
are equal (`findDuplicates`).  This file is a shallow embedding of that code:
file contents are `List Nat` byte lists, paths are `String`s, and the per-file
exception thrown by `readFile` is an `Except` value threaded through the scan.
-/

set_option maxHeartbeats 1000000
set_option maxRecDepth 4000

/-- Bitwise XOR of the low `k` bits of two natural numbers, by explicit binary
recursion so that the kernel can evaluate it.  Models the C++ `^` operator on
the 32-bit CRC register (all operands involved fit in 32 bits). -/
def xorBits : Nat → Nat → Nat → Nat
  | 0, _, _ => 0
  | k + 1, a, b => (if a % 2 = b % 2 then 0 else 1) + 2 * xorBits k (a / 2) (b / 2)

/-- XOR at the 32-bit register width of `boost::crc_32_type`. -/
def xor32 (a b : Nat) : Nat := xorBits 32 a b

/-- One bit-shift step of the reflected CRC-32 algorithm with reversed
polynomial `0xEDB88320`, as implemented by `boost::crc_32_type`. -/
def crcShift (c : Nat) : Nat :=
  if c % 2 = 1 then xor32 (c / 2) 0xEDB88320 else c / 2

/-- Eight shift steps, consuming one input byte of the CRC stream. -/
def crcShift8 (c : Nat) : Nat :=
  crcShift (crcShift (crcShift (crcShift (crcShift (crcShift (crcShift (crcShift c)))))))

/-- Models `calculateCRC32` (src/main.cpp lines 18-22): `boost::crc_32_type`
processes the buffer's bytes and returns the checksum.  That CRC has initial
register `0xFFFFFFFF`, reflected input/output and final XOR `0xFFFFFFFF`. -/
def calculateCRC32 (data : List Nat) : Nat :=
  xor32 (data.foldl (fun c b => crcShift8 (xor32 c (b % 256))) 0xFFFFFFFF) 0xFFFFFFFF

/-- Models the `while` loop of `readFile` (src/main.cpp lines 34-43): read up
to `blockSize` bytes into `buffer`, zero-pad a short (but non-empty) final
read up to `blockSize`, hash the buffer and continue.  `fuel` bounds the
number of loop iterations; `readFile` instantiates it with the file length,
which is enough fuel whenever `blockSize > 0` because every iteration consumes
at least one byte.  (For `blockSize = 0` the C++ loop never terminates —
`gcount()` stays `0` and the stream stays good — so no finite value is
faithful there; see the discussion at claim C9.) -/
def readFileLoop : Nat → List Nat → Nat → List Nat
  | _, [], _ => []
  | 0, _ :: _, _ => []
  | fuel + 1, a :: rest, blockSize =>
    let buffer := (a :: rest).take blockSize
    let buffer2 :=
      if buffer.length < blockSize then
        buffer ++ List.replicate (blockSize - buffer.length) 0
      else buffer
    calculateCRC32 buffer2 :: readFileLoop fuel ((a :: rest).drop blockSize) blockSize

/-- Models `readFile` (src/main.cpp lines 28-45) on a file that opened
successfully: the ordered sequence of per-block CRC-32 hashes. -/
def readFile (data : List Nat) (blockSize : Nat) : List Nat :=
  readFileLoop data.length data blockSize

/-- The (possibly zero-padded) blocks that `readFile`'s loop hashes, in read
order; same loop structure as `readFileLoop`. -/
def padBlocksLoop : Nat → List Nat → Nat → List (List Nat)
  | _, [], _ => []
  | 0, _ :: _, _ => []
  | fuel + 1, a :: rest, blockSize =>
    let buffer := (a :: rest).take blockSize
    let buffer2 :=
      if buffer.length < blockSize then
        buffer ++ List.replicate (blockSize - buffer.length) 0
      else buffer
    buffer2 :: padBlocksLoop fuel ((a :: rest).drop blockSize) blockSize

/-- The sequence of padded blocks of a file. -/
def padBlocks (data : List Nat) (blockSize : Nat) : List (List Nat) :=
  padBlocksLoop data.length data blockSize

/-- Models `compareHashes` (src/main.cpp lines 48-54): unequal lengths give
`false`, otherwise the hash vectors are compared position by position. -/
def compareHashes (hashes1 hashes2 : List Nat) : Bool :=
  if hashes1.length ≠ hashes2.length then false
  else (List.range hashes1.length).all fun i => hashes1.getD i 0 == hashes2.getD i 0

theorem readFileLoop_eq_map (blockSize : Nat) :
    ∀ fuel data, readFileLoop fuel data blockSize =
      (padBlocksLoop fuel data blockSize).map calculateCRC32 := by
  intro fuel
  induction fuel with
  | zero => intro data; cases data <;> rfl
  | succ n ih =>
    intro data
    cases data with
    | nil => rfl
    | cons a rest => simp only [readFileLoop, padBlocksLoop, List.map_cons, ih]

/-- The fingerprint is the CRC-32 of each padded block, in order. -/
theorem readFile_eq_map (data : List Nat) (blockSize : Nat) :
    readFile data blockSize = (padBlocks data blockSize).map calculateCRC32 :=
  readFileLoop_eq_map blockSize data.length data

theorem padBlocksLoop_congr (blockSize : Nat) (hS : 0 < blockSize) :
    ∀ fuel1 fuel2 data, data.length ≤ fuel1 → data.length ≤ fuel2 →
      padBlocksLoop fuel1 data blockSize = padBlocksLoop fuel2 data blockSize := by
  intro fuel1
  induction fuel1 with
  | zero =>
    intro fuel2 data h1 _
    have : data = [] := List.length_eq_zero.mp (Nat.le_zero.mp h1)
    subst this; cases fuel2 <;> rfl
  | succ n ih =>
    intro fuel2 data h1 h2
    cases data with
    | nil => cases fuel2 <;> rfl
    | cons a rest =>
      cases fuel2 with
      | zero => simp at h2
      | succ m =>
        simp only [padBlocksLoop]
        have hlen : ((a :: rest).drop blockSize).length = (a :: rest).length - blockSize := by
          simp [List.length_drop]
        have h1' : ((a :: rest).drop blockSize).length ≤ n := by
          simp only [hlen, List.length_cons] at *; omega
        have h2' : ((a :: rest).drop blockSize).length ≤ m := by
          simp only [hlen, List.length_cons] at *; omega
        rw [ih m ((a :: rest).drop blockSize) h1' h2']

/-- One-step unfolding of `padBlocks` on a non-empty file. -/
theorem padBlocks_cons (a : Nat) (rest : List Nat) (blockSize : Nat) (hS : 0 < blockSize) :
    padBlocks (a :: rest) blockSize =
      (let buffer := (a :: rest).take blockSize
       if buffer.length < blockSize then
         buffer ++ List.replicate (blockSize - buffer.length) 0
       else buffer)
        :: padBlocks ((a :: rest).drop blockSize) blockSize := by
  show padBlocksLoop (rest.length + 1) (a :: rest) blockSize = _
  simp only [padBlocksLoop]
  refine congrArg _ ?_
  apply padBlocksLoop_congr blockSize hS
  · simp [List.length_drop]; omega
  · exact Nat.le_refl _

/-- Generic extensionality via `getD`: lists of equal length that agree at
every position are equal. -/
theorem list_ext_getD {α : Type} (d : α) : ∀ (P Q : List α), P.length = Q.length →
    (∀ i, i < P.length → P.getD i d = Q.getD i d) → P = Q := by
  intro P
  induction P with
  | nil => intro Q hlen _; cases Q with | nil => rfl | cons _ _ => simp at hlen
  | cons x xs ih =>
    intro Q hlen h
    cases Q with
    | nil => simp at hlen
    | cons y ys =>
      have h0 := h 0 (by simp)
      simp only [List.getD_cons_zero] at h0
      rw [h0]
      have htail := ih ys (by simpa using hlen) (fun i hi => by
        have := h (i + 1) (by simpa using hi)
        simpa using this)
      rw [htail]

theorem compareHashes_iff (h1 h2 : List Nat) : compareHashes h1 h2 = true ↔ h1 = h2 := by
  constructor
  · intro h
    unfold compareHashes at h
    by_cases hlen : h1.length = h2.length
    · rw [if_neg (by simp [hlen])] at h
      simp only [List.all_eq_true, List.mem_range, beq_iff_eq] at h
      exact list_ext_getD 0 h1 h2 hlen h
    · rw [if_pos hlen] at h
      exact absurd h (by simp)
  · intro h
    subst h
    unfold compareHashes
    simp

/-- Division step used for the ceiling-length invariant. -/
theorem ceil_div_step (L S : Nat) (hS : 0 < S) (hL : 0 < L) :
    (L + S - 1) / S = (L - S + S - 1) / S + 1 := by
  rcases Nat.lt_or_ge S L with h | h
  · have e1 : L + S - 1 = (L - 1) + S := by omega
    have e2 : L - S + S - 1 = (L - S - 1) + S := by omega
    have e3 : L - 1 = (L - S - 1) + S := by omega
    rw [e1, Nat.add_div_right _ hS, e2, Nat.add_div_right _ hS, e3, Nat.add_div_right _ hS]
  · have e1 : L + S - 1 = (L - 1) + S := by omega
    have e2 : L - S = 0 := by omega
    rw [e1, Nat.add_div_right _ hS, e2]
    rw [Nat.div_eq_of_lt (by omega), Nat.div_eq_of_lt (by omega)]

theorem padBlocksLoop_length (blockSize : Nat) (hS : 0 < blockSize) :
    ∀ fuel data, data.length ≤ fuel →
      (padBlocksLoop fuel data blockSize).length =
        (data.length + blockSize - 1) / blockSize := by
  intro fuel
  induction fuel with
  | zero =>
    intro data h1
    have : data = [] := List.length_eq_zero.mp (Nat.le_zero.mp h1)
    subst this
    simp only [padBlocksLoop, List.length_nil, List.length_cons]
    rw [Nat.div_eq_of_lt (by omega)]
  | succ n ih =>
    intro data h1
    cases data with
    | nil =>
      simp only [padBlocksLoop, List.length_nil, List.length_cons]
      rw [Nat.div_eq_of_lt (by omega)]
    | cons a rest =>
      simp only [padBlocksLoop, List.length_cons]
      have hdl : ((a :: rest).drop blockSize).length = rest.length + 1 - blockSize := by
        simp [List.length_drop]
      rw [ih _ (by simp only [hdl]; simp only [List.length_cons] at h1; omega)]
      rw [hdl, ceil_div_step (rest.length + 1) blockSize hS (by omega)]

/-- The fingerprint has one hash per (ceiling-rounded) block. -/
theorem readFile_length (data : List Nat) (blockSize : Nat) (hS : 0 < blockSize) :
    (readFile data blockSize).length = (data.length + blockSize - 1) / blockSize := by
  rw [readFile_eq_map, List.length_map]
  exact padBlocksLoop_length blockSize hS data.length data (Nat.le_refl _)

theorem padBlocksLoop_getD (blockSize : Nat) (hS : 0 < blockSize) :
    ∀ fuel data i, data.length ≤ fuel → i < (padBlocksLoop fuel data blockSize).length →
      (padBlocksLoop fuel data blockSize).getD i [] =
        (data.drop (i * blockSize)).take blockSize ++
          List.replicate (blockSize - ((data.drop (i * blockSize)).take blockSize).length) 0 := by
  intro fuel
  induction fuel with
  | zero =>
    intro data i h1 hi
    have : data = [] := List.length_eq_zero.mp (Nat.le_zero.mp h1)
    subst this
    simp [padBlocksLoop] at hi
  | succ n ih =>
    intro data i h1 hi
    cases data with
    | nil => simp [padBlocksLoop] at hi
    | cons a rest =>
      cases i with
      | zero =>
        simp only [padBlocksLoop, List.getD_cons_zero, Nat.zero_mul, List.drop_zero]
        by_cases hb : ((a :: rest).take blockSize).length < blockSize
        · rw [if_pos hb]
        · rw [if_neg hb]
          have : blockSize - ((a :: rest).take blockSize).length = 0 := by omega
          rw [this]
          simp
      | succ i =>
        simp only [padBlocksLoop, List.getD_cons_succ]
        simp only [padBlocksLoop, List.length_cons] at hi h1
        have hdl : ((a :: rest).drop blockSize).length = rest.length + 1 - blockSize := by
          simp [List.length_drop]
        rw [ih ((a :: rest).drop blockSize) i (by omega) (by simpa using hi)]
        have hdd : ((a :: rest).drop blockSize).drop (i * blockSize) =
            (a :: rest).drop ((i + 1) * blockSize) := by
          rw [List.drop_drop]
          congr 1
          ring
        rw [hdd]

/-- Helper: `getD` through `map calculateCRC32`. -/
theorem getD_map_crc (l : List (List Nat)) (i : Nat) (hi : i < l.length) :
    (l.map calculateCRC32).getD i 0 = calculateCRC32 (l.getD i []) := by
  induction l generalizing i with
  | nil => simp at hi
  | cons x xs ih =>
    cases i with
    | zero => rfl
    | succ j =>
      simp only [List.map_cons, List.getD_cons_succ]
      exact ih j (by simpa using hi)

/-- C1: the fingerprint is a pure function of the byte content and the block
size — two files with equal bytes get fingerprints of the same length that
agree at every position, and `compareHashes` accepts them. -/
theorem fingerprint_deterministic (A B : List Nat) (S : Nat) (hS : 0 < S) (hAB : A = B) :
    (readFile A S).length = (readFile B S).length ∧
    (∀ i, i < (readFile A S).length → (readFile A S).getD i 0 = (readFile B S).getD i 0) ∧
    compareHashes (readFile A S) (readFile B S) = true := by
  subst hAB
  exact ⟨rfl, fun i _ => rfl, (compareHashes_iff _ _).mpr rfl⟩

/-- Witness for C1 at a concrete file and block size. -/
theorem fingerprint_deterministic_witness :
    0 < 2 ∧ compareHashes (readFile [10, 20, 30] 2) (readFile [10, 20, 30] 2) = true :=
  ⟨by decide, (fingerprint_deterministic [10, 20, 30] [10, 20, 30] 2 (by decide) rfl).2.2⟩

/-- C3: the fingerprint length is exactly `⌈size / blockSize⌉` (written
`(size + blockSize - 1) / blockSize` in natural-number arithmetic), and the
empty file has the empty fingerprint. -/
theorem fingerprint_length_ceil (data : List Nat) (blockSize : Nat) (hS : 0 < blockSize) :
    (readFile data blockSize).length = (data.length + blockSize - 1) / blockSize ∧
    readFile ([] : List Nat) blockSize = [] :=
  ⟨readFile_length data blockSize hS, rfl⟩

/-- Witness for C3: a 3-byte file with block size 2 has ⌈3/2⌉ = 2 hashes. -/
theorem fingerprint_length_ceil_witness :
    (readFile [1, 2, 3] 2).length = (3 + 2 - 1) / 2 ∧ readFile ([] : List Nat) 2 = [] :=
  fingerprint_length_ceil [1, 2, 3] 2 (by decide)

/-- C4: the fingerprint hashes exactly the padded blocks, and block `i` is the
file's bytes from offset `i * blockSize` extended with zero bytes to exactly
`blockSize` bytes (a full block gets an empty extension, i.e. is unpadded). -/
theorem blocks_zero_padded (data : List Nat) (blockSize : Nat) (hS : 0 < blockSize) :
    readFile data blockSize = (padBlocks data blockSize).map calculateCRC32 ∧
    ∀ i, i < (padBlocks data blockSize).length →
      ((padBlocks data blockSize).getD i []).length = blockSize ∧
      (padBlocks data blockSize).getD i [] =
        (data.drop (i * blockSize)).take blockSize ++
          List.replicate (blockSize - ((data.drop (i * blockSize)).take blockSize).length) 0 := by
  refine ⟨readFile_eq_map data blockSize, fun i hi => ?_⟩
  have hg : (padBlocks data blockSize).getD i [] =
      (data.drop (i * blockSize)).take blockSize ++
        List.replicate (blockSize - ((data.drop (i * blockSize)).take blockSize).length) 0 :=
    padBlocksLoop_getD blockSize hS data.length data i (Nat.le_refl _) hi
  refine ⟨?_, hg⟩
  rw [hg]
  simp only [List.length_append, List.length_replicate, List.length_take]
  omega

/-- Witness for C4: the final block of a 3-byte file with block size 2. -/
theorem blocks_zero_padded_witness :
    ((padBlocks [5, 6, 7] 2).getD 1 []).length = 2 ∧
    (padBlocks [5, 6, 7] 2).getD 1 [] =
      (([5, 6, 7] : List Nat).drop (1 * 2)).take 2 ++
        List.replicate (2 - ((([5, 6, 7] : List Nat).drop (1 * 2)).take 2).length) 0 :=
  (blocks_zero_padded [5, 6, 7] 2 (by decide)).2 1 (by decide)

/-- C6 counterexample: the 1-byte file `[1]` and the 2-byte file `[1, 0]`
differ in byte content, yet with block size 2 they have identical
fingerprints, and the bytes actually hashed (the padded blocks) are identical
too — so it is not a CRC-32 collision of distinct hashed block bytes. -/
theorem padding_collision_cex :
    readFile [1] 2 = readFile [1, 0] 2 ∧ ([1] : List Nat) ≠ [1, 0] ∧
    padBlocks [1] 2 = padBlocks [1, 0] 2 := by decide

/-- C6 (amended): files with equal fingerprints either have equal padded
block sequences (e.g. they differ only by trailing zero bytes inside the
final block) or exhibit a genuine CRC-32 collision: some position where the
padded blocks differ but their checksums agree. -/
theorem fingerprints_differ_unless_block_collision (A B : List Nat) (S : Nat)
    (hS : 0 < S) (hAB : A ≠ B) (heq : readFile A S = readFile B S) :
    padBlocks A S = padBlocks B S ∨
    ∃ i, i < (padBlocks A S).length ∧
      (padBlocks A S).getD i [] ≠ (padBlocks B S).getD i [] ∧
      calculateCRC32 ((padBlocks A S).getD i []) =
        calculateCRC32 ((padBlocks B S).getD i []) := by
  by_cases hpb : padBlocks A S = padBlocks B S
  · exact Or.inl hpb
  · right
    rw [readFile_eq_map, readFile_eq_map] at heq
    have hlen : (padBlocks A S).length = (padBlocks B S).length := by
      have := congrArg List.length heq
      simpa using this
    have hex : ∃ i, i < (padBlocks A S).length ∧
        (padBlocks A S).getD i [] ≠ (padBlocks B S).getD i [] := by
      by_contra hall
      push_neg at hall
      exact hpb (list_ext_getD [] _ _ hlen hall)
    obtain ⟨i, hi, hne⟩ := hex
    have hi2 : i < (padBlocks B S).length := hlen ▸ hi
    refine ⟨i, hi, hne, ?_⟩
    have h1 : ((padBlocks A S).map calculateCRC32).getD i 0 =
        ((padBlocks B S).map calculateCRC32).getD i 0 := by rw [heq]
    rw [getD_map_crc _ _ hi, getD_map_crc _ _ hi2] at h1
    exact h1

/-- Witness for C6 (amended) at the padding-collision pair. -/
theorem fingerprints_differ_unless_block_collision_witness :
    padBlocks [1] 2 = padBlocks [1, 0] 2 ∨
    ∃ i, i < (padBlocks [1] 2).length ∧
      (padBlocks [1] 2).getD i [] ≠ (padBlocks [1, 0] 2).getD i [] ∧
      calculateCRC32 ((padBlocks [1] 2).getD i []) =
        calculateCRC32 ((padBlocks [1, 0] 2).getD i []) :=
  fingerprints_differ_unless_block_collision [1] [1, 0] 2 (by decide) (by decide) (by decide)

/-- Tokens of the regular expressions that `main` builds from a name mask
(src/main.cpp lines 146-154): `star` is the fragment `.*` produced from `*`,
`dot` is the single-character wildcard `.` (produced from `?`, or a literal
`.` kept verbatim in the mask, since the rewrite escapes nothing), and
`lit c` is an ordinary character matched case-insensitively
(`std::regex_constants::icase`). -/
inductive MaskTok where
  | star : MaskTok
  | dot : MaskTok
  | lit : Char → MaskTok
deriving DecidableEq

/-- Models the mask-to-regex rewrite of `main` (src/main.cpp lines 146-151)
composed with ECMAScript regex interpretation of the result: `*` becomes the
token `star` (`.*`), `?` becomes `dot` (`.`), a literal `.` stays a regex `.`
and therefore also becomes `dot`, and any other character is kept as a
literal.  Masks containing further ECMAScript metacharacters (listed in
`regexMeta`) are outside this model, and the theorems about matching restrict
themselves accordingly. -/
def maskToTokens : List Char → List MaskTok
  | [] => []
  | c :: rest =>
    (if c = '*' then MaskTok.star
     else if c = '?' then MaskTok.dot
     else if c = '.' then MaskTok.dot
     else MaskTok.lit c) :: maskToTokens rest

/-- The ECMAScript LineTerminator set: line feed, carriage return, LINE
SEPARATOR (U+2028) and PARAGRAPH SEPARATOR (U+2029).  The ECMAScript `.`
that `main`'s rewrite produces — and therefore also the `.*` it produces
from `*` — matches any character except these. -/
def isLineTerm (c : Char) : Bool :=
  c = '\n' || c = '\r' || c = '\u2028' || c = '\u2029'

/-- Anchored matching of a token list against a string, with the ECMAScript
semantics of the regex fragment `^t₁t₂…tₙ$`: `star` (`.*`) consumes zero or
more characters none of which is a line terminator, `dot` (`.`) consumes
exactly one non-line-terminator character, and a literal compares
case-insensitively. -/
def matchToks : List MaskTok → List Char → Bool
  | [], s => s.isEmpty
  | MaskTok.star :: ts, s =>
    (List.range (s.length + 1)).any fun i =>
      ((s.take i).all fun d => !isLineTerm d) && matchToks ts (s.drop i)
  | MaskTok.dot :: ts, s =>
    match s with
    | [] => false
    | d :: s2 => !isLineTerm d && matchToks ts s2
  | MaskTok.lit c :: ts, s =>
    match s with
    | [] => false
    | d :: s2 => (c.toLower == d.toLower) && matchToks ts s2

/-- Models `std::regex_match(filename, maskRegex)` (src/main.cpp line 68) for
the regexes that `main` builds from a name mask. -/
def nameMatch (mask filename : String) : Bool :=
  matchToks (maskToTokens mask.data) filename.data

/-- Follows the spec's words, for comparison with `nameMatch`: glob matching
where `*` matches zero or more of any character, `?` matches exactly one
character, and every other mask character matches only itself,
case-insensitively and anchored start-to-end. -/
def globMatch : List Char → List Char → Bool
  | [], s => s.isEmpty
  | c :: ms, s =>
    if c = '*' then (List.tails s).any fun s2 => globMatch ms s2
    else
      match s with
      | [] => false
      | d :: s2 => (if c = '?' then true else c.toLower == d.toLower) && globMatch ms s2

/-- ECMAScript metacharacters (beyond `*`, `?` and `.`, which are modelled)
that the mask-to-regex rewrite of `main` leaves unescaped; masks containing
them are outside the model of `nameMatch`. -/
def regexMeta : List Char := ['+', '(', ')', '[', ']', '\x7b', '\x7d', '\\', '|', '^', '$']

theorem bool_eq_of_iff {a b : Bool} (h : a = true ↔ b = true) : a = b := by
  cases a <;> cases b <;> simp_all

theorem mem_tails_iff_drop {α : Type} : ∀ (s t : List α),
    t ∈ s.tails ↔ ∃ i, i ≤ s.length ∧ t = s.drop i := by
  intro s
  induction s with
  | nil =>
    intro t
    have t0 : (List.tails ([] : List α)) = [[]] := rfl
    rw [t0]
    constructor
    · intro ht
      refine ⟨0, Nat.le_refl _, ?_⟩
      simpa using ht
    · rintro ⟨i, _, rfl⟩
      simp
  | cons a s ih =>
    intro t
    have tc : (a :: s).tails = (a :: s) :: s.tails := rfl
    rw [tc]
    simp only [List.mem_cons]
    constructor
    · rintro (rfl | ht)
      · exact ⟨0, by simp, rfl⟩
      · obtain ⟨i, hi, rfl⟩ := (ih t).mp ht
        refine ⟨i + 1, ?_, rfl⟩
        simp only [List.length_cons]
        omega
    · rintro ⟨i, hi, rfl⟩
      cases i with
      | zero => exact Or.inl rfl
      | succ j =>
        right
        refine (ih _).mpr ⟨j, ?_, rfl⟩
        simp only [List.length_cons] at hi
        omega

/-- A `.` produced by the rewrite never consumes a line terminator. -/
theorem dot_rejects_lineTerm (ts : List MaskTok) (d : Char) (s : List Char)
    (hd : isLineTerm d = true) :
    matchToks (MaskTok.dot :: ts) (d :: s) = false := by
  simp [matchToks, hd]

/-- A `.*` produced by the rewrite stops in front of a line terminator: it
can only match the empty prefix there. -/
theorem star_stops_at_lineTerm (ts : List MaskTok) (d : Char) (s : List Char)
    (hd : isLineTerm d = true) :
    matchToks (MaskTok.star :: ts) (d :: s) = matchToks ts (d :: s) := by
  apply bool_eq_of_iff
  simp only [matchToks, List.any_eq_true, List.mem_range, Bool.and_eq_true]
  constructor
  · rintro ⟨i, hi, hall, hm⟩
    cases i with
    | zero => simpa using hm
    | succ j =>
      exfalso
      rw [List.all_eq_true] at hall
      have hmem : d ∈ (d :: s).take (j + 1) := by
        rw [List.take_succ_cons]
        exact List.mem_cons_self d _
      have := hall d hmem
      simp [hd] at this
  · intro h
    refine ⟨0, by omega, ?_, ?_⟩
    · simp
    · simpa using h

theorem matchToks_eq_globMatch (ms : List Char) (hm : ∀ c ∈ ms, c ≠ '.') :
    ∀ s, (∀ c ∈ s, isLineTerm c = false) →
      matchToks (maskToTokens ms) s = globMatch ms s := by
  induction ms with
  | nil => intro s _; rfl
  | cons c ms ih =>
    have hm' : ∀ c' ∈ ms, c' ≠ '.' := fun c' hc' => hm c' (List.mem_cons_of_mem c hc')
    have hc : c ≠ '.' := hm c (List.mem_cons_self c ms)
    intro s hs
    by_cases h1 : c = '*'
    · subst h1
      have hmask : maskToTokens ('*' :: ms) = MaskTok.star :: maskToTokens ms := rfl
      have hglob : globMatch ('*' :: ms) s = (List.tails s).any fun s2 => globMatch ms s2 :=
        rfl
      rw [hmask, hglob]
      apply bool_eq_of_iff
      simp only [matchToks, List.any_eq_true, List.mem_range, Bool.and_eq_true]
      constructor
      · rintro ⟨i, hi, hall, hmch⟩
        refine ⟨s.drop i, (mem_tails_iff_drop s (s.drop i)).mpr ⟨i, by omega, rfl⟩, ?_⟩
        rw [← ih hm' (s.drop i) (fun c2 hc2 => hs c2 (List.mem_of_mem_drop hc2))]
        exact hmch
      · rintro ⟨t, ht, hglob2⟩
        obtain ⟨i, hi, rfl⟩ := (mem_tails_iff_drop s t).mp ht
        refine ⟨i, by omega, ?_, ?_⟩
        · rw [List.all_eq_true]
          intro d hd
          have hdf : isLineTerm d = false := hs d (List.mem_of_mem_take hd)
          simp [hdf]
        · rw [ih hm' (s.drop i) (fun c2 hc2 => hs c2 (List.mem_of_mem_drop hc2))]
          exact hglob2
    · by_cases h2 : c = '?'
      · subst h2
        cases s with
        | nil => simp [maskToTokens, matchToks, globMatch]
        | cons d s2 =>
          have hd : isLineTerm d = false := hs d (List.mem_cons_self d s2)
          have hs2 : ∀ c2 ∈ s2, isLineTerm c2 = false :=
            fun c2 hc2 => hs c2 (List.mem_cons_of_mem d hc2)
          simp [maskToTokens, matchToks, globMatch, hd]
          exact ih hm' s2 hs2
      · simp only [maskToTokens, if_neg h1, if_neg h2, if_neg hc, matchToks, globMatch]
        cases s with
        | nil => rfl
        | cons d s2 =>
          have hs2 : ∀ c2 ∈ s2, isLineTerm c2 = false :=
            fun c2 hc2 => hs c2 (List.mem_cons_of_mem d hc2)
          simp only [if_neg h2, ih hm' s2 hs2]

/-- C8 (amended): the compiled matcher is anchored and case-insensitive, but
its wildcards have the ECMAScript semantics the `*` → `.*`, `?` → `.`
rewrite actually produces: `?` matches exactly one character that is not a
line terminator, `*` matches zero or more non-line-terminator characters,
and since nothing is escaped a mask character that is a regex metacharacter
keeps its regex meaning (a literal `.` also matches any single
non-line-terminator character — see the counterexample).  For masks free of
regex metacharacters and of `.`, matching on filenames containing no line
terminator coincides with the anchored case-insensitive glob semantics, and
the spec's example behaves as claimed. -/
theorem mask_glob_semantics :
    (∀ (mask filename : String), (∀ c ∈ mask.data, c ∉ regexMeta ∧ c ≠ '.') →
        (∀ c ∈ filename.data, isLineTerm c = false) →
        nameMatch mask filename = globMatch mask.data filename.data) ∧
    (∀ (ts : List MaskTok) (d : Char) (s : List Char), isLineTerm d = true →
        matchToks (MaskTok.dot :: ts) (d :: s) = false ∧
        matchToks (MaskTok.star :: ts) (d :: s) = matchToks ts (d :: s)) ∧
    nameMatch "*.TXT" "report.txt" = true ∧
    nameMatch "*.TXT" "report.txtx" = false := by
  refine ⟨fun mask filename h hf =>
      matchToks_eq_globMatch mask.data (fun c hcm => (h c hcm).2) filename.data hf,
    fun ts d s hd => ⟨dot_rejects_lineTerm ts d s hd, star_stops_at_lineTerm ts d s hd⟩,
    by decide, by decide⟩

/-- Witness for C8 (amended): a metacharacter-free mask on a
line-terminator-free filename, and a `.` wildcard meeting a line feed. -/
theorem mask_glob_semantics_witness :
    nameMatch "file?" "FILE7" = globMatch "file?".data "FILE7".data ∧
    matchToks [MaskTok.dot] ['\n'] = false :=
  ⟨mask_glob_semantics.1 "file?" "FILE7" (by decide) (by decide),
   (mask_glob_semantics.2.1 [] '\n' [] (by decide)).1⟩

/-- C8 counterexample, refuting the claimed glob semantics in both directions
the code deviates: the mask `a.b` — whose `.` should per the claim match only
itself — does match the filename `axb` under the compiled regex, because the
rewrite leaves `.` unescaped; and the mask `a?` — whose `?` should per the
claim match exactly one arbitrary character — fails to match the filename
`a` followed by a line feed, because ECMAScript `.` excludes line
terminators.  The spec's glob semantics decides both inputs the other way. -/
theorem mask_dot_metachar_cex :
    (nameMatch "a.b" "axb" = true ∧ globMatch "a.b".data "axb".data = false) ∧
    (nameMatch "a?" "a\n" = false ∧ globMatch "a?".data "a\n".data = true) := by decide

/-- Four little-endian bytes of one 32-bit hash, as laid out in memory by
`std::vector<uint32_t>` on the x86 targets the program is built for. -/
def hashKeyBytes (h : Nat) : List Nat :=
  [h % 256, h / 256 % 256, h / 65536 % 256, h / 16777216 % 256]

/-- The group key built at src/main.cpp line 99: the byte image of the whole
hash vector (`reinterpret_cast<const char*>(data())`, `size() * 4` bytes). -/
def hashKey : List Nat → List Nat
  | [] => []
  | h :: rest => hashKeyBytes h ++ hashKey rest

/-- The `duplicates` accumulator `std::map<std::string, std::set<fs::path>>`
(src/main.cpp line 78), modelled as a function from group key to the set of
member paths (absent keys map to the empty set). -/
def DupMap : Type := List Nat → Finset String

/-- The initially empty `duplicates` map. -/
def emptyDups : DupMap := fun _ => ∅

/-- One `duplicates[hashKey].insert(path)` call (lines 101-102). -/
def dupInsert (d : DupMap) (key : List Nat) (p : String) : DupMap :=
  fun k => if k = key then insert p (d k) else d k

/-- The inner comparison loop (lines 97-104): compare fixed entry `f1`
against every later entry `f2`; on equal hash vectors insert both paths
under the key serialized from `f1`'s hashes. -/
def dupInnerLoop (f1 : String × List Nat) (rest : List (String × List Nat)) (d : DupMap) :
    DupMap :=
  rest.foldl
    (fun d2 f2 =>
      if compareHashes f1.2 f2.2 = true then
        dupInsert (dupInsert d2 (hashKey f1.2) f1.1) (hashKey f1.2) f2.1
      else d2)
    d

/-- The outer comparison loop (lines 96-105) over the `allFiles` entries in
`std::map` iteration order. -/
def dupOuterLoop : List (String × List Nat) → DupMap → DupMap
  | [], d => d
  | f1 :: rest, d => dupOuterLoop rest (dupInnerLoop f1 rest d)

/-- The grouping pass of `findDuplicates` (src/main.cpp lines 96-105). -/
def groupDuplicates (allFiles : List (String × List Nat)) : DupMap :=
  dupOuterLoop allFiles emptyDups

/-- A filesystem entry as the directory iteration presents it to
`processFile`: path, immediate parent path, filename, regular-file flag,
whether opening it for reading succeeds, and its byte content (whose length
is the entry's `file_size()`). -/
structure EntryInfo where
  path : String
  parent : String
  filename : String
  isRegularFile : Bool
  readable : Bool
  content : List Nat
deriving DecidableEq

/-- The fallible interface of `readFile` (src/main.cpp lines 28-45): the
`throw std::runtime_error("Cannot open file: " + path)` on open failure
becomes an `Except.error` with the same message; a readable file yields its
hash sequence. -/
def readFileE (e : EntryInfo) (blockSize : Nat) : Except String (List Nat) :=
  if e.readable = true then Except.ok (readFile e.content blockSize)
  else Except.error ("Cannot open file: " ++ e.path)

/-- Models `allFiles[entry.path()] = hashes` on
`std::map<fs::path, std::vector<uint32_t>>` (src/main.cpp line 72): the map
is modelled as an association list with at most one entry per path; insertion
replaces the value when the path is already a key.  (`std::map` additionally
iterates its entries in key order; the model keeps insertion order instead,
which changes nothing any claim observes: the map still holds one entry per
path, and the pairwise grouping pass visits every unordered pair of distinct
entries exactly once in either order.) -/
def mapInsert (m : List (String × List Nat)) (p : String) (v : List Nat) :
    List (String × List Nat) :=
  match m with
  | [] => [(p, v)]
  | (q, w) :: rest =>
    if p = q then (p, v) :: rest
    else (q, w) :: mapInsert rest p v

/-- Models `processFile` (src/main.cpp lines 60-74): reject non-regular
entries, entries whose parent directory is in the exclusion list, entries
smaller than `minSize`, and entries whose filename fails the mask; otherwise
fingerprint the file and store it under its path.  The exception `readFile`
may throw is not caught and propagates. -/
def processFileE (e : EntryInfo) (exclusions : List String) (minSize : Nat) (mask : String)
    (blockSize : Nat) (allFiles : List (String × List Nat)) :
    Except String (List (String × List Nat)) :=
  if e.isRegularFile = true then
    if e.parent ∈ exclusions then Except.ok allFiles
    else if e.content.length < minSize then Except.ok allFiles
    else if nameMatch mask e.filename = false then Except.ok allFiles
    else
      match readFileE e blockSize with
      | Except.error msg => Except.error msg
      | Except.ok hashes => Except.ok (mapInsert allFiles e.path hashes)
  else Except.ok allFiles

/-- The value `minSize` is initialized to in `main` (src/main.cpp line 121). -/
def defaultMinSize : Nat := 1

/-- The candidate-collection loop of `findDuplicates` (src/main.cpp lines
80-94) over the already-enumerated directory entries: process each entry in
order; an exception escaping `processFile` aborts the whole loop (nothing
catches it). -/
def scanEntries (entries : List EntryInfo) (exclusions : List String) (minSize : Nat)
    (mask : String) (blockSize : Nat) (allFiles : List (String × List Nat)) :
    Except String (List (String × List Nat)) :=
  match entries with
  | [] => Except.ok allFiles
  | e :: rest =>
    match processFileE e exclusions minSize mask blockSize allFiles with
    | Except.error msg => Except.error msg
    | Except.ok allFiles2 => scanEntries rest exclusions minSize mask blockSize allFiles2

/-- Models `findDuplicates` (src/main.cpp lines 77-113) on the entries the
directory iteration yields: collect fingerprints of admissible files, then
run the pairwise grouping pass.  An exception thrown while reading a file is
caught neither in `findDuplicates` nor in `main`, so it aborts the run
before any duplicate group is produced. -/
def findDuplicatesE (entries : List EntryInfo) (exclusions : List String)
    (blockSize minSize : Nat) (mask : String) : Except String DupMap :=
  match scanEntries entries exclusions minSize mask blockSize [] with
  | Except.error msg => Except.error msg
  | Except.ok allFiles => Except.ok (groupDuplicates allFiles)

/-- The conjunction of the four admission rules of `processFile`
(src/main.cpp lines 61-70). -/
def Admissible (e : EntryInfo) (exclusions : List String) (minSize : Nat) (mask : String) :
    Prop :=
  e.isRegularFile = true ∧ e.parent ∉ exclusions ∧ ¬(e.content.length < minSize) ∧
    nameMatch mask e.filename = true

instance (e : EntryInfo) (exclusions : List String) (minSize : Nat) (mask : String) :
    Decidable (Admissible e exclusions minSize mask) := by
  unfold Admissible
  infer_instance

/-- `processFile` characterized by the admission rules: an admissible entry
is fingerprinted and stored (or its read failure propagates), any other
entry leaves the candidate map untouched. -/
theorem processFileE_char (e : EntryInfo) (exclusions : List String) (minSize : Nat)
    (mask : String) (blockSize : Nat) (m : List (String × List Nat)) :
    processFileE e exclusions minSize mask blockSize m =
      if Admissible e exclusions minSize mask
      then Except.map (mapInsert m e.path) (readFileE e blockSize)
      else Except.ok m := by
  unfold processFileE Admissible
  by_cases h1 : e.isRegularFile = true
  · by_cases h2 : e.parent ∈ exclusions
    · simp [h1, h2]
    · by_cases h3 : e.content.length < minSize
      · simp [h1, h2, h3]
      · by_cases h4 : nameMatch mask e.filename = false
        · simp [h1, h2, h3, h4]
        · have h4' : nameMatch mask e.filename = true := by
            cases hnm : nameMatch mask e.filename
            · exact absurd hnm h4
            · rfl
          rw [if_pos h1, if_neg h2, if_neg h3, if_neg h4, if_pos ⟨h1, h2, h3, h4'⟩]
          cases hr : readFileE e blockSize with
          | error msg => rfl
          | ok hashes => rfl
  · simp [h1]

/-- C7: an entry is admitted for fingerprinting iff it is a regular file,
its immediate parent directory is not an exact-path member of the exclusion
list, its byte size is not strictly below the minimum, and its filename
matches the name pattern; any rejection leaves the candidate map unchanged,
and with the default minimum size of 1 an empty file is always rejected. -/
theorem candidate_selector_rules (e : EntryInfo) (exclusions : List String) (minSize : Nat)
    (mask : String) (blockSize : Nat) (m : List (String × List Nat)) :
    (Admissible e exclusions minSize mask ↔
      (e.isRegularFile = true ∧ e.parent ∉ exclusions ∧ ¬(e.content.length < minSize) ∧
        nameMatch mask e.filename = true)) ∧
    (processFileE e exclusions minSize mask blockSize m =
      if Admissible e exclusions minSize mask
      then Except.map (mapInsert m e.path) (readFileE e blockSize)
      else Except.ok m) ∧
    (e.content = [] → processFileE e exclusions defaultMinSize mask blockSize m =
      Except.ok m) := by
  refine ⟨Iff.rfl, processFileE_char e exclusions minSize mask blockSize m, fun hc => ?_⟩
  have hnA : ¬Admissible e exclusions defaultMinSize mask := by
    intro hA
    exact hA.2.2.1 (by simp [hc, defaultMinSize])
  rw [processFileE_char, if_neg hnA]

/-- Witness for C7: an empty file is rejected under the default minimum. -/
theorem candidate_selector_rules_witness :
    processFileE (⟨"d/e.txt", "d", "e.txt", true, true, []⟩ : EntryInfo) [] defaultMinSize
      "*" 4096 [] = Except.ok [] :=
  (candidate_selector_rules (⟨"d/e.txt", "d", "e.txt", true, true, []⟩ : EntryInfo) []
    defaultMinSize "*" 4096 []).2.2 rfl

theorem processFileE_ok_of_not_failing (e : EntryInfo) (exclusions : List String)
    (minSize : Nat) (mask : String) (blockSize : Nat) (m : List (String × List Nat))
    (h : ¬(Admissible e exclusions minSize mask ∧ e.readable = false)) :
    ∃ m2, processFileE e exclusions minSize mask blockSize m = Except.ok m2 := by
  rw [processFileE_char]
  by_cases hA : Admissible e exclusions minSize mask
  · rw [if_pos hA]
    have hr : e.readable = true := by
      cases hre : e.readable
      · exact absurd ⟨hA, hre⟩ h
      · rfl
    unfold readFileE
    rw [if_pos hr]
    exact ⟨_, rfl⟩
  · rw [if_neg hA]
    exact ⟨m, rfl⟩

theorem processFileE_error_of_failing (e : EntryInfo) (exclusions : List String)
    (minSize : Nat) (mask : String) (blockSize : Nat) (m : List (String × List Nat))
    (hA : Admissible e exclusions minSize mask) (hr : e.readable = false) :
    processFileE e exclusions minSize mask blockSize m =
      Except.error ("Cannot open file: " ++ e.path) := by
  rw [processFileE_char, if_pos hA]
  unfold readFileE
  rw [hr]
  rfl

theorem scanEntries_error (exclusions : List String) (minSize : Nat) (mask : String)
    (blockSize : Nat) :
    ∀ (entries : List EntryInfo) (acc : List (String × List Nat)),
      (∃ e ∈ entries, Admissible e exclusions minSize mask ∧ e.readable = false) →
      ∃ p, (∃ e ∈ entries, e.path = p ∧ Admissible e exclusions minSize mask ∧
              e.readable = false) ∧
        scanEntries entries exclusions minSize mask blockSize acc =
          Except.error ("Cannot open file: " ++ p) := by
  intro entries
  induction entries with
  | nil => intro acc h; simp at h
  | cons e rest ih =>
    intro acc h
    by_cases hf : Admissible e exclusions minSize mask ∧ e.readable = false
    · refine ⟨e.path, ⟨e, List.mem_cons_self e rest, rfl, hf.1, hf.2⟩, ?_⟩
      unfold scanEntries
      rw [processFileE_error_of_failing e exclusions minSize mask blockSize acc hf.1 hf.2]
    · obtain ⟨m2, hm2⟩ :=
        processFileE_ok_of_not_failing e exclusions minSize mask blockSize acc hf
      have hrest : ∃ e2 ∈ rest, Admissible e2 exclusions minSize mask ∧
          e2.readable = false := by
        obtain ⟨e2, he2, hA2, hr2⟩ := h
        rcases List.mem_cons.mp he2 with heq | he2'
        · subst heq
          exact absurd ⟨hA2, hr2⟩ hf
        · exact ⟨e2, he2', hA2, hr2⟩
      obtain ⟨p, ⟨e2, he2, hp, hA2, hr2⟩, hscan⟩ := ih m2 hrest
      refine ⟨p, ⟨e2, List.mem_cons_of_mem e he2, hp, hA2, hr2⟩, ?_⟩
      unfold scanEntries
      rw [hm2]
      exact hscan

/-- C5 (amended): when opening an admitted candidate file fails, `readFile`
throws `"Cannot open file: <path>"` with the offending path; but the
exception is caught nowhere, so the scan does not continue with the
remaining candidates — the whole run aborts with that error and no duplicate
groups are produced at all. -/
theorem unreadable_file_aborts_run (entries : List EntryInfo) (exclusions : List String)
    (blockSize minSize : Nat) (mask : String)
    (h : ∃ e ∈ entries, Admissible e exclusions minSize mask ∧ e.readable = false) :
    ∃ p, (∃ e ∈ entries, e.path = p ∧ Admissible e exclusions minSize mask ∧
            e.readable = false) ∧
      findDuplicatesE entries exclusions blockSize minSize mask =
        Except.error ("Cannot open file: " ++ p) := by
  obtain ⟨p, hmem, hscan⟩ := scanEntries_error exclusions minSize mask blockSize entries [] h
  refine ⟨p, hmem, ?_⟩
  unfold findDuplicatesE
  rw [hscan]

/-- Witness for C5 (amended) at a single unreadable candidate. -/
theorem unreadable_file_aborts_run_witness :
    ∃ p, (∃ e ∈ [(⟨"d/bad.txt", "d", "bad.txt", true, false, [7]⟩ : EntryInfo)],
            e.path = p ∧ Admissible e [] 1 "*" ∧ e.readable = false) ∧
      findDuplicatesE [(⟨"d/bad.txt", "d", "bad.txt", true, false, [7]⟩ : EntryInfo)] [] 2 1
          "*" = Except.error ("Cannot open file: " ++ p) :=
  unreadable_file_aborts_run [(⟨"d/bad.txt", "d", "bad.txt", true, false, [7]⟩ : EntryInfo)]
    [] 2 1 "*" (by decide)

/-- C5 counterexample: three candidates — `bad.txt` unreadable, `a.txt` and
`b.txt` with identical bytes — and the run aborts on the unreadable file
instead of continuing: no duplicate group over the remaining files is
produced, contradicting the claim that one unreadable file does not abort
the run. -/
theorem unreadable_file_not_skipped_cex :
    findDuplicatesE
        [(⟨"d/bad.txt", "d", "bad.txt", true, false, [7]⟩ : EntryInfo),
         (⟨"d/a.txt", "d", "a.txt", true, true, [7, 8]⟩ : EntryInfo),
         (⟨"d/b.txt", "d", "b.txt", true, true, [7, 8]⟩ : EntryInfo)] [] 2 1 "*" =
      Except.error ("Cannot open file: " ++ "d/bad.txt") := rfl

/-- C9: the program validates the block size nowhere — admission of an entry
does not consult it, so with block size `0` (the only non-positive `size_t`
value, a negative prompt answer not being representable) the scan still
begins and an admissible file is still handed to `readFile`, whose C++ read
loop then never terminates (a zero-byte read keeps `gcount() == 0` and the
stream good); no ConfigurationError is surfaced before scanning.  In the
model the entry is processed and inserted into the candidate map under block
size 0 (the model's fuel cuts the loop off at the file length, where the C++
loop would spin forever). -/
theorem no_blocksize_validation :
    Admissible (⟨"d/f.txt", "d", "f.txt", true, true, [65]⟩ : EntryInfo) [] defaultMinSize
      "*" ∧
    (processFileE (⟨"d/f.txt", "d", "f.txt", true, true, [65]⟩ : EntryInfo) []
        defaultMinSize "*" 0 []).isOk = true ∧
    processFileE (⟨"d/f.txt", "d", "f.txt", true, true, [65]⟩ : EntryInfo) []
        defaultMinSize "*" 0 [] ≠ Except.ok [] := by
  refine ⟨by decide, by decide, fun h => ?_⟩
  exact List.cons_ne_nil _ _ (Except.ok.inj h)

theorem mem_dupInsert (d : DupMap) (key : List Nat) (q : String) (k : List Nat) (p : String) :
    p ∈ dupInsert d key q k ↔ if k = key then (p = q ∨ p ∈ d k) else p ∈ d k := by
  unfold dupInsert
  by_cases hk : k = key
  · simp [hk]
  · simp [hk]

theorem mem_dupInnerLoop (f1 : String × List Nat) :
    ∀ (rest : List (String × List Nat)) (d : DupMap) (k : List Nat) (p : String),
      p ∈ dupInnerLoop f1 rest d k ↔
        p ∈ d k ∨ ∃ f2 ∈ rest, compareHashes f1.2 f2.2 = true ∧ k = hashKey f1.2 ∧
          (p = f1.1 ∨ p = f2.1) := by
  intro rest
  induction rest with
  | nil => intro d k p; simp [dupInnerLoop]
  | cons f2 rest ih =>
    intro d k p
    have hstep : dupInnerLoop f1 (f2 :: rest) d =
        dupInnerLoop f1 rest
          (if compareHashes f1.2 f2.2 = true then
            dupInsert (dupInsert d (hashKey f1.2) f1.1) (hashKey f1.2) f2.1
          else d) := rfl
    rw [hstep, ih]
    by_cases hc : compareHashes f1.2 f2.2 = true
    · rw [if_pos hc]
      constructor
      · rintro (hmem | ⟨f3, hf3, hcmp3, hk3, hp3⟩)
        · rw [mem_dupInsert] at hmem
          by_cases hk : k = hashKey f1.2
          · rw [if_pos hk] at hmem
            rcases hmem with hp | hmem2
            · exact Or.inr ⟨f2, List.mem_cons_self f2 rest, hc, hk, Or.inr hp⟩
            · rw [mem_dupInsert, if_pos hk] at hmem2
              rcases hmem2 with hp | hmem3
              · exact Or.inr ⟨f2, List.mem_cons_self f2 rest, hc, hk, Or.inl hp⟩
              · exact Or.inl hmem3
          · rw [if_neg hk] at hmem
            rw [mem_dupInsert, if_neg hk] at hmem
            exact Or.inl hmem
        · exact Or.inr ⟨f3, List.mem_cons_of_mem f2 hf3, hcmp3, hk3, hp3⟩
      · rintro (hmem | ⟨f3, hf3, hcmp3, hk3, hp3⟩)
        · left
          rw [mem_dupInsert]
          by_cases hk : k = hashKey f1.2
          · rw [if_pos hk]
            right
            rw [mem_dupInsert, if_pos hk]
            right
            exact hmem
          · rw [if_neg hk, mem_dupInsert, if_neg hk]
            exact hmem
        · rcases List.mem_cons.mp hf3 with heq | hf3'
          · subst heq
            left
            rw [mem_dupInsert, if_pos hk3]
            rcases hp3 with hp | hp
            · right
              rw [mem_dupInsert, if_pos hk3]
              exact Or.inl hp
            · exact Or.inl hp
          · exact Or.inr ⟨f3, hf3', hcmp3, hk3, hp3⟩
    · rw [if_neg hc]
      constructor
      · rintro (hmem | ⟨f3, hf3, hcmp3, hk3, hp3⟩)
        · exact Or.inl hmem
        · exact Or.inr ⟨f3, List.mem_cons_of_mem f2 hf3, hcmp3, hk3, hp3⟩
      · rintro (hmem | ⟨f3, hf3, hcmp3, hk3, hp3⟩)
        · exact Or.inl hmem
        · rcases List.mem_cons.mp hf3 with heq | hf3'
          · subst heq
            exact absurd hcmp3 hc
          · exact Or.inr ⟨f3, hf3', hcmp3, hk3, hp3⟩

theorem pair_sublist_cons {α : Type} (a b x : α) (l : List α) :
    [a, b].Sublist (x :: l) ↔ (a = x ∧ b ∈ l) ∨ [a, b].Sublist l := by
  constructor
  · intro h
    cases h with
    | cons _ h' => exact Or.inr h'
    | cons₂ _ h' => exact Or.inl ⟨rfl, List.singleton_sublist.mp h'⟩
  · rintro (⟨rfl, hb⟩ | h)
    · exact List.Sublist.cons₂ a (List.singleton_sublist.mpr hb)
    · exact List.Sublist.cons x h

theorem two_mem_sublist {α : Type} {a b : α} (hne : a ≠ b) :
    ∀ (l : List α), a ∈ l → b ∈ l → [a, b].Sublist l ∨ [b, a].Sublist l := by
  intro l
  induction l with
  | nil => intro ha; simp at ha
  | cons x t ih =>
    intro ha hb
    rcases List.mem_cons.mp ha with rfl | ha'
    · have hb' : b ∈ t := by
        rcases List.mem_cons.mp hb with hbx | hb'
        · exact absurd hbx.symm hne
        · exact hb'
      exact Or.inl (List.Sublist.cons₂ a (List.singleton_sublist.mpr hb'))
    · rcases List.mem_cons.mp hb with rfl | hb'
      · exact Or.inr (List.Sublist.cons₂ b (List.singleton_sublist.mpr ha'))
      · rcases ih ha' hb' with h | h
        · exact Or.inl (List.Sublist.cons x h)
        · exact Or.inr (List.Sublist.cons x h)

theorem sublist_pair_fst_ne (l : List (String × List Nat))
    (hnd : (l.map Prod.fst).Nodup) (a b : String × List Nat)
    (hs : [a, b].Sublist l) : a.1 ≠ b.1 := by
  have hm : ([a, b].map Prod.fst).Sublist (l.map Prod.fst) := List.Sublist.map Prod.fst hs
  have hnd2 : ([a.1, b.1] : List String).Nodup := List.Nodup.sublist hm hnd
  simp only [List.nodup_cons, List.mem_singleton] at hnd2
  exact hnd2.1

theorem nodup_keys_val_eq (l : List (String × List Nat))
    (hnd : (l.map Prod.fst).Nodup) (p : String) (x y : List Nat)
    (hx : (p, x) ∈ l) (hy : (p, y) ∈ l) : x = y := by
  induction l with
  | nil => simp at hx
  | cons e t ih =>
    simp only [List.map_cons, List.nodup_cons] at hnd
    rcases List.mem_cons.mp hx with hex | hx'
    · rcases List.mem_cons.mp hy with hey | hy'
      · have : (p, x) = (p, y) := hex.trans hey.symm
        exact congrArg Prod.snd this
      · exfalso
        apply hnd.1
        rw [← hex]
        show p ∈ List.map Prod.fst t
        exact List.mem_map_of_mem Prod.fst hy'
    · rcases List.mem_cons.mp hy with hey | hy'
      · exfalso
        apply hnd.1
        rw [← hey]
        show p ∈ List.map Prod.fst t
        exact List.mem_map_of_mem Prod.fst hx'
      · exact ih hnd.2 hx' hy'

theorem mem_dupOuterLoop :
    ∀ (l : List (String × List Nat)) (d : DupMap) (k : List Nat) (p : String),
      p ∈ dupOuterLoop l d k ↔
        p ∈ d k ∨ ∃ a b, [a, b].Sublist l ∧ compareHashes a.2 b.2 = true ∧
          k = hashKey a.2 ∧ (p = a.1 ∨ p = b.1) := by
  intro l
  induction l with
  | nil =>
    intro d k p
    simp only [dupOuterLoop]
    constructor
    · exact Or.inl
    · rintro (h | ⟨a, b, hs, _⟩)
      · exact h
      · simp [List.sublist_nil] at hs
  | cons f1 rest ih =>
    intro d k p
    show p ∈ dupOuterLoop rest (dupInnerLoop f1 rest d) k ↔ _
    rw [ih, mem_dupInnerLoop]
    constructor
    · rintro ((hmem | ⟨f2, hf2, hc, hk, hp⟩) | ⟨a, b, hs, hc, hk, hp⟩)
      · exact Or.inl hmem
      · exact Or.inr
          ⟨f1, f2, (pair_sublist_cons f1 f2 f1 rest).mpr (Or.inl ⟨rfl, hf2⟩), hc, hk, hp⟩
      · exact Or.inr ⟨a, b, (pair_sublist_cons a b f1 rest).mpr (Or.inr hs), hc, hk, hp⟩
    · rintro (hmem | ⟨a, b, hs, hc, hk, hp⟩)
      · exact Or.inl (Or.inl hmem)
      · rcases (pair_sublist_cons a b f1 rest).mp hs with ⟨hax, hb⟩ | hs'
        · subst hax
          exact Or.inl (Or.inr ⟨b, hb, hc, hk, hp⟩)
        · exact Or.inr ⟨a, b, hs', hc, hk, hp⟩

theorem mem_groupDuplicates (l : List (String × List Nat)) (k : List Nat) (p : String) :
    p ∈ groupDuplicates l k ↔
      ∃ a b, [a, b].Sublist l ∧ compareHashes a.2 b.2 = true ∧
        k = hashKey a.2 ∧ (p = a.1 ∨ p = b.1) := by
  unfold groupDuplicates
  rw [mem_dupOuterLoop]
  simp [emptyDups]

/-- C2: over candidates with pairwise-distinct paths (as the path-keyed
`std::map` guarantees), the grouping pass emits only groups of at least two
members; a candidate whose fingerprint equals no other candidate's appears
in no group; and a candidate with at least one identical-fingerprint peer
appears in the group keyed by the byte serialization of its own fingerprint
and in no other group. -/
theorem duplicate_grouping_correct (l : List (String × List Nat))
    (hnd : (l.map Prod.fst).Nodup) :
    (∀ k, groupDuplicates l k ≠ ∅ → 2 ≤ (groupDuplicates l k).card) ∧
    (∀ p fp, (p, fp) ∈ l → (∀ q fq, (q, fq) ∈ l → q ≠ p → fq ≠ fp) →
      ∀ k, p ∉ groupDuplicates l k) ∧
    (∀ p fp, (p, fp) ∈ l → (∃ q fq, (q, fq) ∈ l ∧ q ≠ p ∧ fq = fp) →
      p ∈ groupDuplicates l (hashKey fp) ∧
      ∀ k, p ∈ groupDuplicates l k → k = hashKey fp) := by
  refine ⟨?_, ?_, ?_⟩
  · intro k hne
    obtain ⟨p, hp⟩ := Finset.nonempty_iff_ne_empty.mpr hne
    obtain ⟨a, b, hs, hc, hk, hor⟩ := (mem_groupDuplicates l k p).mp hp
    have ha : a.1 ∈ groupDuplicates l k :=
      (mem_groupDuplicates l k a.1).mpr ⟨a, b, hs, hc, hk, Or.inl rfl⟩
    have hb : b.1 ∈ groupDuplicates l k :=
      (mem_groupDuplicates l k b.1).mpr ⟨a, b, hs, hc, hk, Or.inr rfl⟩
    have hne2 : a.1 ≠ b.1 := sublist_pair_fst_ne l hnd a b hs
    have h1 : 1 < (groupDuplicates l k).card :=
      Finset.one_lt_card.mpr ⟨a.1, ha, b.1, hb, hne2⟩
    omega
  · intro p fp hmem hno k hpk
    obtain ⟨a, b, hs, hc, hk, hor⟩ := (mem_groupDuplicates l k p).mp hpk
    have hsub := List.Sublist.subset hs
    have haL : a ∈ l := hsub (by simp)
    have hbL : b ∈ l := hsub (by simp)
    have hab : a.1 ≠ b.1 := sublist_pair_fst_ne l hnd a b hs
    have hceq : a.2 = b.2 := (compareHashes_iff a.2 b.2).mp hc
    rcases hor with rfl | rfl
    · have ha2 : a.2 = fp := nodup_keys_val_eq l hnd a.1 a.2 fp (by simpa using haL) hmem
      have hbne : b.2 ≠ fp := hno b.1 b.2 (by simpa using hbL) (fun hb1 => hab hb1.symm)
      apply hbne
      rw [← hceq]
      exact ha2
    · have hb2 : b.2 = fp := nodup_keys_val_eq l hnd b.1 b.2 fp (by simpa using hbL) hmem
      have hane : a.2 ≠ fp := hno a.1 a.2 (by simpa using haL) hab
      exact hane (hceq.trans hb2)
  · intro p fp hmem hpeer
    obtain ⟨q, fq, hq, hqp, hfq⟩ := hpeer
    have hne2 : (p, fp) ≠ (q, fq) := by
      intro h
      exact hqp (congrArg Prod.fst h).symm
    constructor
    · rcases two_mem_sublist hne2 l hmem hq with hs | hs
      · exact (mem_groupDuplicates l (hashKey fp) p).mpr
          ⟨(p, fp), (q, fq), hs, (compareHashes_iff fp fq).mpr hfq.symm, rfl, Or.inl rfl⟩
      · refine (mem_groupDuplicates l (hashKey fp) p).mpr
          ⟨(q, fq), (p, fp), hs, (compareHashes_iff fq fp).mpr hfq, ?_, Or.inr rfl⟩
        rw [hfq]
    · intro k hpk
      obtain ⟨a, b, hs, hc, hk, hor⟩ := (mem_groupDuplicates l k p).mp hpk
      have hsub := List.Sublist.subset hs
      have haL : a ∈ l := hsub (by simp)
      have hbL : b ∈ l := hsub (by simp)
      have hceq : a.2 = b.2 := (compareHashes_iff a.2 b.2).mp hc
      rcases hor with rfl | rfl
      · have ha2 : a.2 = fp := nodup_keys_val_eq l hnd a.1 a.2 fp (by simpa using haL) hmem
        rw [hk, ha2]
      · have hb2 : b.2 = fp := nodup_keys_val_eq l hnd b.1 b.2 fp (by simpa using hbL) hmem
        rw [hk, hceq, hb2]

/-- Witness for C2 on three concrete candidates, two of them duplicates. -/
theorem duplicate_grouping_correct_witness :
    2 ≤ (groupDuplicates [("a", [1]), ("b", [1]), ("c", [2])] (hashKey [1])).card ∧
    "c" ∉ groupDuplicates [("a", [1]), ("b", [1]), ("c", [2])] (hashKey [2]) ∧
    "a" ∈ groupDuplicates [("a", [1]), ("b", [1]), ("c", [2])] (hashKey [1]) := by
  have h := duplicate_grouping_correct [("a", [1]), ("b", [1]), ("c", [2])] (by decide)
  refine ⟨h.1 (hashKey [1]) (by decide), ?_, (h.2.2 "a" [1] (by decide)
    ⟨"b", [1], by decide, by decide, rfl⟩).1⟩
  refine h.2.1 "c" [2] (by decide) ?_ (hashKey [2])
  intro q fq hqf hq
  rcases List.mem_cons.mp hqf with heq | hqf2
  · have hfq1 : fq = [1] := (Prod.ext_iff.mp heq).2
    rw [hfq1]
    decide
  · rcases List.mem_cons.mp hqf2 with heq | hqf3
    · have hfq1 : fq = [1] := (Prod.ext_iff.mp heq).2
      rw [hfq1]
      decide
    · rcases List.mem_cons.mp hqf3 with heq | hqf4
      · exact absurd (Prod.ext_iff.mp heq).1 hq
      · simp at hqf4

theorem mapInsert_keys_sub :
    ∀ (m : List (String × List Nat)) (p : String) (v : List Nat) (x : String),
      x ∈ (mapInsert m p v).map Prod.fst → x = p ∨ x ∈ m.map Prod.fst := by
  intro m
  induction m with
  | nil =>
    intro p v x hx
    simp [mapInsert] at hx
    exact Or.inl hx
  | cons e t ih =>
    intro p v x hx
    obtain ⟨q, w⟩ := e
    simp only [mapInsert] at hx
    by_cases h1 : p = q
    · rw [if_pos h1] at hx
      simp only [List.map_cons, List.mem_cons] at hx
      rcases hx with hx | hx
      · exact Or.inl hx
      · refine Or.inr ?_
        simp only [List.map_cons, List.mem_cons]
        exact Or.inr hx
    · rw [if_neg h1] at hx
      simp only [List.map_cons, List.mem_cons] at hx
      rcases hx with hx | hx
      · refine Or.inr ?_
        simp only [List.map_cons, List.mem_cons]
        exact Or.inl hx
      · rcases ih p v x hx with h | h
        · exact Or.inl h
        · refine Or.inr ?_
          simp only [List.map_cons, List.mem_cons]
          exact Or.inr h

theorem mapInsert_nodup :
    ∀ (m : List (String × List Nat)) (p : String) (v : List Nat),
      ((m.map Prod.fst).Nodup) → (((mapInsert m p v).map Prod.fst).Nodup) := by
  intro m
  induction m with
  | nil =>
    intro p v _
    simp [mapInsert]
  | cons e t ih =>
    intro p v hs
    obtain ⟨q, w⟩ := e
    simp only [List.map_cons, List.nodup_cons] at hs
    obtain ⟨hq, ht⟩ := hs
    by_cases h1 : p = q
    · simp only [mapInsert, if_pos h1, List.map_cons, List.nodup_cons]
      refine ⟨?_, ht⟩
      rw [h1]
      exact hq
    · simp only [mapInsert, if_neg h1, List.map_cons, List.nodup_cons]
      refine ⟨?_, ih p v ht⟩
      intro hb
      rcases mapInsert_keys_sub t p v q hb with heq | hb'
      · exact h1 heq.symm
      · exact hq hb'

theorem processFileE_cases (e : EntryInfo) (exclusions : List String) (minSize : Nat)
    (mask : String) (blockSize : Nat) (m : List (String × List Nat)) :
    processFileE e exclusions minSize mask blockSize m = Except.ok m ∨
    (∃ v, processFileE e exclusions minSize mask blockSize m =
      Except.ok (mapInsert m e.path v)) ∨
    (∃ msg, processFileE e exclusions minSize mask blockSize m = Except.error msg) := by
  rw [processFileE_char]
  by_cases hA : Admissible e exclusions minSize mask
  · rw [if_pos hA]
    unfold readFileE
    by_cases hr : e.readable = true
    · rw [if_pos hr]
      exact Or.inr (Or.inl ⟨_, rfl⟩)
    · rw [if_neg hr]
      exact Or.inr (Or.inr ⟨_, rfl⟩)
  · rw [if_neg hA]
    exact Or.inl rfl

theorem scanEntries_nodup (exclusions : List String) (minSize : Nat) (mask : String)
    (blockSize : Nat) :
    ∀ (entries : List EntryInfo) (acc m : List (String × List Nat)),
      ((acc.map Prod.fst).Nodup) →
      scanEntries entries exclusions minSize mask blockSize acc = Except.ok m →
      ((m.map Prod.fst).Nodup) := by
  intro entries
  induction entries with
  | nil =>
    intro acc m hacc hscan
    unfold scanEntries at hscan
    exact (Except.ok.inj hscan) ▸ hacc
  | cons e rest ih =>
    intro acc m hacc hscan
    unfold scanEntries at hscan
    rcases processFileE_cases e exclusions minSize mask blockSize acc with
      hok | ⟨v, hok⟩ | ⟨msg, herr⟩
    · rw [hok] at hscan
      exact ih acc m hacc hscan
    · rw [hok] at hscan
      exact ih _ m (mapInsert_nodup acc e.path v hacc) hscan
    · rw [herr] at hscan
      exact Except.noConfusion hscan

/-- C10: whatever entry sequence the directory iteration yields — including
the same file reached repeatedly through duplicated or overlapping scan
directories — the path-keyed candidate map holds exactly one fingerprint
entry per path (its key list is duplicate-free), every duplicate group is a
set of paths (duplicate-free member list), and every group member arises
from comparing two map entries with distinct paths and equal fingerprints,
never from comparing a file with itself. -/
theorem groups_pair_distinct_paths (entries : List EntryInfo) (exclusions : List String)
    (minSize : Nat) (mask : String) (blockSize : Nat) (m : List (String × List Nat))
    (h : scanEntries entries exclusions minSize mask blockSize [] = Except.ok m) :
    (m.map Prod.fst).Nodup ∧
    (∀ k, (groupDuplicates m k).val.Nodup) ∧
    (∀ k p, p ∈ groupDuplicates m k →
      ∃ a b, a ∈ m ∧ b ∈ m ∧ a.1 ≠ b.1 ∧ a.2 = b.2 ∧ k = hashKey a.2 ∧
        (p = a.1 ∨ p = b.1)) := by
  have hnd : (m.map Prod.fst).Nodup :=
    scanEntries_nodup exclusions minSize mask blockSize entries [] m (by simp) h
  refine ⟨hnd, fun k => (groupDuplicates m k).nodup, fun k p hpk => ?_⟩
  obtain ⟨a, b, hs, hc, hk, hor⟩ := (mem_groupDuplicates m k p).mp hpk
  exact ⟨a, b, List.Sublist.subset hs (by simp), List.Sublist.subset hs (by simp),
    sublist_pair_fst_ne m hnd a b hs, (compareHashes_iff a.2 b.2).mp hc, hk, hor⟩

/-- Witness for C10: the same file appears twice in the entry stream, yet
the candidate map keeps one entry per path and the duplicate pair found is a
pair of distinct paths. -/
theorem groups_pair_distinct_paths_witness :
    (([("d/a.txt", [calculateCRC32 [65]]), ("d/b.txt", [calculateCRC32 [65]])].map
        Prod.fst).Nodup) ∧
    (∃ a b, a ∈ [("d/a.txt", [calculateCRC32 [65]]), ("d/b.txt", [calculateCRC32 [65]])] ∧
      b ∈ [("d/a.txt", [calculateCRC32 [65]]), ("d/b.txt", [calculateCRC32 [65]])] ∧
      a.1 ≠ b.1 ∧ a.2 = b.2 ∧ hashKey [calculateCRC32 [65]] = hashKey a.2 ∧
      ("d/a.txt" = a.1 ∨ "d/a.txt" = b.1)) := by
  have h := groups_pair_distinct_paths
    [(⟨"d/a.txt", "d", "a.txt", true, true, [65]⟩ : EntryInfo),
     (⟨"d/b.txt", "d", "b.txt", true, true, [65]⟩ : EntryInfo),
     (⟨"d/a.txt", "d", "a.txt", true, true, [65]⟩ : EntryInfo)] [] 1 "*" 1
    [("d/a.txt", [calculateCRC32 [65]]), ("d/b.txt", [calculateCRC32 [65]])] rfl
  exact ⟨h.1, h.2.2 (hashKey [calculateCRC32 [65]]) "d/a.txt" (by decide)⟩
